import Mathlib

/-!
Verification of the stream example of larsewi/librsync
(src/examples/stream/{common.h, client.c, server.c}).

The development shallowly embeds:

* the framing codec `send_message` / `recv_message` of common.h, modelled as
  pure functions over byte lists (a socket write that is fully accepted is a
  list append; a socket read is taking a prefix of the remaining wire bytes);

* the static input buffer `in_buf` of size BUFFER_SIZE together with the
  "move leftover tail to the front, then read new bytes after it" refill
  blocks of the four pump loops (`InWin`, `moveToFront`, `writeAt`,
  `fileRefill`, `socketRefill`);

* the two emitting pump loops `send_signature` (client.c) and `send_delta`
  (server.c), which are textually identical up to an extra assert and which
  are modelled by the single function `emitRun`, and the receiving pump loop
  `recv_signature` (server.c), modelled by `recvRun`.

The librsync job (`rs_job_iter`) is an external collaborator; one call to it
is modelled by a `JobStep` (bytes consumed from the front of the input
window, bytes written to the output window, returned status), and one whole
run of the pump is driven by a list of such steps.  The pump models check
the documented job contract (a step consumes at most `avail_in` bytes and
writes at most `avail_out` bytes) and flag a violating step with
`PumpErr.contract`; everything else is translated directly from the C code.
Byte values are modelled as `Nat`; machine-integer truncation is written out
explicitly (`% 65536` for the `uint16_t` header).
-/

namespace RsStream

/-- BUFFER_SIZE from common.h: `UINT16_MAX >> 1` = 32767, the capacity of the
static `in_buf` / `out_buf` arrays and the largest frame payload. -/
def BUFFER_SIZE : Nat := 65535 >>> 1

/-- The `send_message` function of common.h, with every `write` fully
accepted by the socket.  Returns the bytes put on the wire: the 2-byte
big-endian header `(len << 1) | eof` followed by the payload (sent only when
`len > 0`), or `none` when the `assert(len <= UINT16_MAX >> 1)` at the top
fires, i.e. the call aborts before anything is written. -/
def send_message (msg : List Nat) (eof : Bool) : Option (List Nat) :=
  if msg.length ≤ BUFFER_SIZE then
    let header : Nat := ((msg.length <<< 1) % 65536) ||| (if eof then 1 else 0)
    some (header / 256 :: header % 256 :: (if 0 < msg.length then msg else []))
  else
    none

/-- The `recv_message` function of common.h, reading from the head of the
remaining wire bytes.  Returns the decoded payload, the decoded EOF flag and
the wire bytes left over, or `none` on a short read (fewer than 2 header
bytes, or fewer payload bytes than the header announces), which the C code
treats as a hard error. -/
def recv_message (wire : List Nat) : Option (List Nat × Bool × List Nat) :=
  match wire with
  | b0 :: b1 :: rest =>
    let header : Nat := b0 * 256 + b1
    let eof : Bool := (header &&& 1) == 1
    let len : Nat := header >>> 1
    if 0 < len then
      if rest.length < len then none
      else some (rest.take len, eof, rest.drop len)
    else
      some ([], eof, rest)
  | _ => none

lemma two_mul_lor_one (n : Nat) : 2 * n ||| 1 = 2 * n + 1 := by
  apply Nat.eq_of_testBit_eq
  intro i
  cases i with
  | zero => simp [Nat.testBit_lor, Nat.testBit_zero, Nat.mul_add_mod]
  | succ i =>
    rw [Nat.testBit_lor, Nat.testBit_succ, Nat.testBit_succ, Nat.testBit_succ]
    norm_num [Nat.mul_add_div, Nat.mul_div_cancel_left]

/-- The header value assembled by send_message equals `2 * len + eofbit`
whenever `len` fits the 15-bit field. -/
lemma header_val (len : Nat) (e : Bool) (h : len ≤ BUFFER_SIZE) :
    ((len <<< 1) % 65536) ||| (if e then 1 else 0) = 2 * len + (if e then 1 else 0) := by
  have hb : len ≤ 32767 := by simpa [BUFFER_SIZE] using h
  have hsh : len <<< 1 = 2 * len := by
    rw [Nat.shiftLeft_eq]; ring
  have hmod : (2 * len) % 65536 = 2 * len := Nat.mod_eq_of_lt (by omega)
  rw [hsh, hmod]
  cases e with
  | false => simp
  | true => simpa using two_mul_lor_one len

lemma payload_if (msg : List Nat) : (if 0 < msg.length then msg else []) = msg := by
  split
  · rfl
  · rename_i h
    have : msg.length = 0 := by omega
    simp [List.length_eq_zero.mp this]

/-- C2: frame round-trip.  For every payload of length at most 32767 and
every eof flag, decoding the wire bytes produced by `send_message` with
`recv_message` recovers exactly the original payload, the original eof flag,
and leaves any following wire bytes untouched. -/
theorem c2_frame_round_trip (msg : List Nat) (eof : Bool) (rest wire : List Nat)
    (hlen : msg.length ≤ BUFFER_SIZE)
    (henc : send_message msg eof = some wire) :
    recv_message (wire ++ rest) = some (msg, eof, rest) := by
  have hb : msg.length ≤ 32767 := by simpa [BUFFER_SIZE] using hlen
  simp only [send_message, if_pos hlen, payload_if, header_val msg.length eof hlen] at henc
  set bit : Nat := if eof then 1 else 0 with hbit
  have hbitle : bit ≤ 1 := by rw [hbit]; split <;> omega
  have hwire : wire = (2 * msg.length + bit) / 256 :: (2 * msg.length + bit) % 256 :: msg := by
    exact (Option.some.injEq _ _).mp henc.symm
  subst hwire
  rw [List.cons_append, List.cons_append]
  have hrec : (2 * msg.length + bit) / 256 * 256 + (2 * msg.length + bit) % 256
      = 2 * msg.length + bit := by omega
  simp only [recv_message, hrec]
  have hand : (2 * msg.length + bit) &&& 1 = bit := by
    rw [Nat.and_one_is_mod]; omega
  have hshr : (2 * msg.length + bit) >>> 1 = msg.length := by
    rw [Nat.shiftRight_eq_div_pow]; omega
  rw [hand, hshr]
  have heof : (bit == 1) = eof := by
    rw [hbit]; cases eof <;> simp
  cases hc : decide (0 < msg.length) with
  | true =>
    have hpos : 0 < msg.length := of_decide_eq_true hc
    rw [if_pos hpos, if_neg (by simp [List.length_append])]
    rw [List.take_left' rfl, List.drop_left' rfl, heof]
  | false =>
    have hz : msg.length = 0 := by have := of_decide_eq_false hc; omega
    have hmsg : msg = [] := List.length_eq_zero.mp hz
    subst hmsg
    simp [heof]

/-- Witness for C2 at a concrete frame: payload [1, 2] with eof set encodes
to header 5 = (2 << 1) | 1, i.e. wire [0, 5, 1, 2], and decodes back. -/
theorem c2_frame_round_trip_witness :
    ([1, 2] : List Nat).length ≤ BUFFER_SIZE ∧
    send_message [1, 2] true = some [0, 5, 1, 2] ∧
    recv_message [0, 5, 1, 2] = some ([1, 2], true, []) := by
  refine ⟨by decide, by decide, ?_⟩
  have h := c2_frame_round_trip [1, 2] true [] [0, 5, 1, 2] (by decide) (by decide)
  simpa using h

/-- C7: length bound.  `send_message` with a payload longer than 32767 bytes
is stopped by the assert at the top of the function: it returns having
written nothing (no truncated header ever reaches the socket). -/
theorem c7_oversize_rejected (msg : List Nat) (eof : Bool)
    (h : BUFFER_SIZE < msg.length) :
    send_message msg eof = none := by
  rw [send_message, if_neg (by omega)]

/-- Witness for C7: a payload of exactly 32768 bytes is rejected. -/
theorem c7_oversize_rejected_witness :
    BUFFER_SIZE < (List.replicate 32768 (0 : Nat)).length ∧
    send_message (List.replicate 32768 (0 : Nat)) true = none := by
  have hlen : (List.replicate 32768 (0 : Nat)).length = 32768 :=
    List.length_replicate 32768 0
  have hlt : BUFFER_SIZE < (List.replicate 32768 (0 : Nat)).length := by
    rw [hlen]; decide
  exact ⟨hlt, c7_oversize_rejected _ true hlt⟩

/-- C9: header bit layout.  For every payload within the length bound,
`send_message` transmits a 2-byte big-endian header whose value is
`2 * length + eofbit` — the EOF flag in bit 0 and the length in bits 1-15 —
followed by the payload bytes; and `recv_message` accepts a header of length
0 as a valid empty payload, reading no payload bytes past the header. -/
theorem c9_header_layout (msg : List Nat) (eof : Bool) (rest : List Nat)
    (h : msg.length ≤ BUFFER_SIZE) :
    send_message msg eof
      = some ((2 * msg.length + (if eof then 1 else 0)) / 256
              :: (2 * msg.length + (if eof then 1 else 0)) % 256
              :: msg) ∧
    recv_message (0 :: (if eof then 1 else 0) :: rest) = some ([], eof, rest) := by
  constructor
  · rw [send_message, if_pos h, payload_if]
    simp only [header_val msg.length eof h]
  · rw [recv_message]
    cases eof <;> simp

/-- Witness for C9: payload [3] without eof has header value 2, wire
[0, 2, 3]; the empty-payload header [0, 0] decodes to an empty payload
leaving the next wire byte unread. -/
theorem c9_header_layout_witness :
    send_message [3] false = some [0, 2, 3] ∧
    recv_message [0, 0, 9] = some ([], false, [9]) := by
  have h := c9_header_layout [3] false [9] (by decide)
  exact ⟨by simpa using h.1, h.2⟩

/-- The input window over the static `in_buf` array: `storage` is the whole
buffer contents, `next_in = in_buf + offset`, and `availIn` is `avail_in`,
so the logical window of unconsumed bytes is `[offset, offset + availIn)`. -/
structure InWin where
  storage : List Nat
  offset : Nat
  availIn : Nat
deriving DecidableEq

/-- The logical window of unconsumed bytes, `[next_in, next_in + avail_in)`. -/
def InWin.window (w : InWin) : List Nat := (w.storage.drop w.offset).take w.availIn

/-- The buffer contents after `if (avail_in > 0) memmove(in_buf, next_in,
avail_in)`: positions `[0, availIn)` receive the old window, positions from
`availIn` on keep their old contents. -/
def moveToFront (w : InWin) : List Nat :=
  if 0 < w.availIn then (w.storage.drop w.offset).take w.availIn ++ w.storage.drop w.availIn
  else w.storage

/-- Writing `data` into a buffer at byte position `pos` (the footprint of
`fread(in_buf + avail_in, ...)` or `read(sock, in_buf + avail_in, ...)`).
If `pos + data.length` exceeds the buffer length the result is longer than
the buffer: the model's image of a write past the end of the array. -/
def writeAt (stor : List Nat) (pos : Nat) (data : List Nat) : List Nat :=
  stor.take pos ++ data ++ stor.drop (pos + data.length)

/-- A stdio stream open for reading: the bytes not yet read, and the EOF
indicator that `feof` reports (set when a read attempts to go past the end
of the file). -/
structure FileSt where
  rest : List Nat
  eofFlag : Bool
deriving DecidableEq

/-- One `fread(ptr, 1, n, file)` call: returns up to `n` of the remaining
bytes and the advanced stream, whose EOF indicator becomes set when fewer
than `n` bytes were available. -/
def fread (f : FileSt) (n : Nat) : List Nat × FileSt :=
  (f.rest.take n, ⟨f.rest.drop n, f.eofFlag || decide (f.rest.length < n)⟩)

/-- The file refill block of `send_signature` (client.c) and `send_delta`
(server.c): move the leftover tail to the front of `in_buf`, then
`fread(in_buf + avail_in, 1, sizeof(in_buf) - avail_in, file)` and grow the
window by the bytes read (next_in is reset to in_buf, i.e. offset 0). -/
def fileRefill (cap : Nat) (w : InWin) (f : FileSt) : InWin × FileSt :=
  let stor1 := moveToFront w
  let r := fread f (cap - w.availIn)
  (⟨writeAt stor1 w.availIn r.1, 0, w.availIn + r.1.length⟩, r.2)

/-- The socket refill block of `recv_signature` (server.c) and
`recv_delta_and_patch_file` (client.c):
`recv_message(sock, in_buf + bufs.avail_in, &n_bytes, &bufs.eof_in)`; the
received payload is written right after the leftover tail, with no check of
the remaining capacity, and the window grows by the payload length.  Returns
the new window, the received eof flag, and the remaining wire bytes, or
`none` when `recv_message` fails. -/
def socketRefill (w : InWin) (wire : List Nat) : Option (InWin × Bool × List Nat) :=
  let stor1 := moveToFront w
  match recv_message wire with
  | none => none
  | some (payload, eofF, wire') =>
    some (⟨writeAt stor1 w.availIn payload, 0, w.availIn + payload.length⟩, eofF, wire')

lemma moveToFront_length (w : InWin) (cap : Nat) (hstor : w.storage.length = cap)
    (hinv : w.offset + w.availIn ≤ cap) : (moveToFront w).length = cap := by
  rw [moveToFront]
  split
  · simp only [List.length_append, List.length_take, List.length_drop, hstor]
    omega
  · exact hstor

lemma moveToFront_take (w : InWin) (cap : Nat) (hstor : w.storage.length = cap)
    (hinv : w.offset + w.availIn ≤ cap) :
    (moveToFront w).take w.availIn = w.window := by
  rw [moveToFront, InWin.window]
  split
  · refine List.take_left' ?_
    simp only [List.length_take, List.length_drop, hstor]
    omega
  · rename_i h
    have hz : w.availIn = 0 := by omega
    simp [hz]

/-- C8: leftover carry-over.  For every refill on a window satisfying the
buffer invariant, the refill relocates the unconsumed tail to the start of
the buffer preserving its bytes and their order, appends the newly read
source bytes directly after that tail, resets the offset to 0, and the new
logical window is exactly the old tail followed by the new bytes. -/
theorem c8_leftover_carry_over (cap : Nat) (w : InWin) (f : FileSt)
    (hstor : w.storage.length = cap) (hinv : w.offset + w.availIn ≤ cap) :
    (fileRefill cap w f).1.offset = 0 ∧
    (fileRefill cap w f).1.storage.take w.availIn = w.window ∧
    ((fileRefill cap w f).1.storage.drop w.availIn).take (f.rest.take (cap - w.availIn)).length
      = f.rest.take (cap - w.availIn) ∧
    (fileRefill cap w f).1.window = w.window ++ f.rest.take (cap - w.availIn) := by
  have hlen1 : (moveToFront w).length = cap := moveToFront_length w cap hstor hinv
  have htk : (moveToFront w).take w.availIn = w.window := moveToFront_take w cap hstor hinv
  have hwinlen : w.window.length = w.availIn := by
    rw [InWin.window]
    simp only [List.length_take, List.length_drop, hstor]
    omega
  have htklen : ((moveToFront w).take w.availIn).length = w.availIn := by
    rw [htk]; exact hwinlen
  refine ⟨rfl, ?_, ?_, ?_⟩
  · rw [fileRefill]
    simp only [fread, writeAt]
    rw [List.append_assoc, List.take_left' htklen, htk]
  · rw [fileRefill]
    simp only [fread, writeAt]
    rw [List.append_assoc, List.drop_left' htklen, List.take_left' rfl]
  · rw [fileRefill]
    simp only [fread, writeAt, InWin.window, List.drop_zero]
    refine (List.take_left' ?_).trans ?_
    · simp only [List.length_append, htklen]
    · rw [htk, InWin.window]

/-- Witness for C8: a 6-byte buffer holding tail [3, 4, 5] at offset 2, with
file bytes [7, 8, 9, 10] remaining: the refill yields window
[3, 4, 5, 7, 8, 9]. -/
theorem c8_leftover_carry_over_witness :
    (⟨[1, 2, 3, 4, 5, 6], 2, 3⟩ : InWin).storage.length = 6 ∧
    (⟨[1, 2, 3, 4, 5, 6], 2, 3⟩ : InWin).offset + (⟨[1, 2, 3, 4, 5, 6], 2, 3⟩ : InWin).availIn ≤ 6 ∧
    (fileRefill 6 ⟨[1, 2, 3, 4, 5, 6], 2, 3⟩ ⟨[7, 8, 9, 10], false⟩).1.window
      = (⟨[1, 2, 3, 4, 5, 6], 2, 3⟩ : InWin).window
        ++ (⟨[7, 8, 9, 10], false⟩ : FileSt).rest.take (6 - 3) := by
  refine ⟨by decide, by decide, ?_⟩
  exact (c8_leftover_carry_over 6 ⟨[1, 2, 3, 4, 5, 6], 2, 3⟩ ⟨[7, 8, 9, 10], false⟩
    (by decide) (by decide)).2.2.2

lemma writeAt_length (stor : List Nat) (pos : Nat) (data : List Nat) :
    (writeAt stor pos data).length
      = min pos stor.length + data.length + (stor.length - (pos + data.length)) := by
  simp [writeAt]
  omega

/-- C1 (code bug): the socket refill does not bound the incoming payload by
the remaining capacity of `in_buf`.  With a leftover tail of 32766 bytes and
an incoming frame of payload length 2 (header bytes [0, 4]), the refill
leaves `offset + availIn = 32768 > 32767 = BUFFER_SIZE`, and the write
footprint extends one byte past the end of the 32767-byte buffer (the
modelled storage grows to length 32768).  This violates the claimed
invariant `offset + filled ≤ CAPACITY`. -/
theorem c1_socket_refill_overflow :
    (socketRefill ⟨List.replicate BUFFER_SIZE 0, 0, 32766⟩ [0, 4, 9, 9]).map
        (fun o => (o.1.offset, o.1.availIn, o.1.storage.length))
      = some (0, 32768, 32768) ∧ BUFFER_SIZE < 32768 := by
  have hB : BUFFER_SIZE = 32767 := by norm_num [BUFFER_SIZE, Nat.shiftRight_eq_div_pow]
  constructor
  · have hrecv : recv_message [0, 4, 9, 9] = some ([9, 9], false, []) := by decide
    rw [hB]
    simp only [socketRefill, hrecv, Option.map_some']
    have hm : (moveToFront ⟨List.replicate 32767 (0 : Nat), 0, 32766⟩).length = 32767 :=
      moveToFront_length _ 32767 (by exact List.length_replicate 32767 0)
        (by show 0 + 32766 ≤ 32767; omega)
    refine congrArg some (Prod.ext rfl (Prod.ext rfl ?_))
    rw [writeAt_length, hm]
    norm_num
  · rw [hB]; omega

/-- The rs_job_iter return statuses the drivers distinguish: RS_BLOCKED,
RS_DONE, and anything else (treated as failure by every driver). -/
inductive RsResult
  | blocked
  | done
  | failed
deriving DecidableEq

/-- One observed call to `rs_job_iter`: how many bytes the job consumed from
the front of the input window, the bytes it wrote to the output window, and
the status it returned.  The job is an external collaborator; a pump run is
driven by a list of such steps, one per loop iteration. -/
structure JobStep where
  consume : Nat
  output : List Nat
  res : RsResult
deriving DecidableEq

/-- The distinct error exits of a pump loop. `noDone` marks a job-step list
that ends before the job reports RS_DONE (the C loop would keep iterating);
`contract` marks a job step that violates the rs_buffers_t contract (consume
more than avail_in or write more than avail_out), which the C code trusts
and never checks. -/
inductive PumpErr
  | noDone
  | contract
  | jobFailed
  | assertFail
  | recvFail
deriving DecidableEq

/-- Per-iteration observations of an emitting pump: the eof_in flag at the
top of the iteration, whether fread was called, how many bytes it requested
and returned, and the eof_in flag right after the refill block. -/
structure EmitIter where
  eofBefore : Bool
  pulled : Bool
  req : Nat
  got : Nat
  eofAfter : Bool
deriving DecidableEq

/-- The state an emitting pump (`send_signature` / `send_delta`) carries
between iterations: the logical input window (the bytes at
`[next_in, next_in + avail_in)` of `in_buf`), the basis/new file stream, and
the `bufs.eof_in` flag.  `c8_leftover_carry_over` justifies representing the
refill on this view as list append. -/
structure EmitSt where
  window : List Nat
  file : FileSt
  eofIn : Bool
deriving DecidableEq

/-- The outcome of an emitting pump run: the frames `(payload, eof flag)`
passed to `send_message` in order (`.ok`) or the error exit taken, the
per-iteration log, and the final state. -/
structure EmitOut where
  result : Except PumpErr (List (List Nat × Bool))
  log : List EmitIter
  final : EmitSt

/-- The refill block shared by `send_signature` (client.c, lines 134-157)
and `send_delta` (server.c, lines 185-205): skipped entirely once
`bufs.eof_in` is nonzero; otherwise the leftover tail stays at the front of
the window and `fread` appends up to `sizeof(in_buf) - avail_in` new bytes;
when fread returns 0 bytes, `eof_in` is set from `feof(file)` (a read error
never occurs in this model; the ferror branch is the error exit of the C
code and is not reachable here). -/
def emitRefill (cap : Nat) (s : EmitSt) : EmitSt × EmitIter :=
  if s.eofIn then (s, ⟨s.eofIn, false, 0, 0, s.eofIn⟩)
  else
    let room := cap - s.window.length
    let r := fread s.file room
    let eofNew := if r.1.length = 0 then r.2.eofFlag else s.eofIn
    (⟨s.window ++ r.1, r.2, eofNew⟩, ⟨s.eofIn, true, room, r.1.length, eofNew⟩)

/-- The emitting pump loop of `send_signature` (client.c) and `send_delta`
(server.c), which are textually identical up to `send_signature`'s extra
`assert(bufs.eof_in != 0)`: refill (unless eof_in), run one job step, then
drain `present = next_out - out_buf` bytes through `send_message` with the
current `eof_in` as the frame flag, looping until the job returns RS_DONE.
The job-contract check (`PumpErr.contract`) models the rs_buffers_t
discipline the C code relies on: a step consumes at most `avail_in` bytes
and writes at most `avail_out = cap` bytes. -/
def emitRun (cap : Nat) : List JobStep → EmitSt → EmitOut
  | [], s => ⟨.error .noDone, [], s⟩
  | step :: rest, s =>
    let p := emitRefill cap s
    if p.1.window.length < step.consume ∨ cap < step.output.length then
      ⟨.error .contract, [p.2], p.1⟩
    else if step.res = .failed then
      ⟨.error .jobFailed, [p.2], ⟨p.1.window.drop step.consume, p.1.file, p.1.eofIn⟩⟩
    else if 0 < step.output.length ∧ send_message step.output p.1.eofIn = none then
      ⟨.error .assertFail, [p.2], ⟨p.1.window.drop step.consume, p.1.file, p.1.eofIn⟩⟩
    else if step.res = .done then
      ⟨.ok (if 0 < step.output.length then [(step.output, p.1.eofIn)] else []), [p.2],
        ⟨p.1.window.drop step.consume, p.1.file, p.1.eofIn⟩⟩
    else
      let o := emitRun cap rest ⟨p.1.window.drop step.consume, p.1.file, p.1.eofIn⟩
      ⟨o.result.map
          (fun fs => (if 0 < step.output.length then [(step.output, p.1.eofIn)] else []) ++ fs),
        p.2 :: o.log, o.final⟩

/-- The initial rs_buffers_t setup of both emitting pumps:
`rs_buffers_t bufs = { 0 }` with an empty window, the file unread, eof_in 0. -/
def emitInit (input : List Nat) : EmitSt := ⟨[], ⟨input, false⟩, false⟩

/-- The job steps a run actually executes: everything up to and including
the first RS_DONE step (the do-while loop exits there). -/
def ranSteps : List JobStep → List JobStep
  | [] => []
  | step :: rest => if step.res = .done then [step] else step :: ranSteps rest

lemma emitRun_ok_flatten (cap : Nat) (script : List JobStep) :
    ∀ (s : EmitSt) (frames : List (List Nat × Bool)),
      (emitRun cap script s).result = .ok frames →
      (frames.map Prod.fst).flatten = ((ranSteps script).map JobStep.output).flatten := by
  induction script with
  | nil =>
    intro s frames h
    simp [emitRun] at h
  | cons step rest ih =>
    intro s frames h
    simp only [emitRun] at h
    split at h
    · simp at h
    · split at h
      · simp at h
      · split at h
        · simp at h
        · split at h
          · rename_i hnf hna hdone
            simp only at h
            have hframes := (Except.ok.inj h).symm
            rw [ranSteps, if_pos hdone]
            subst hframes
            split
            · simp
            · rename_i hz
              have : step.output = [] := by
                refine List.length_eq_zero.mp ?_
                omega
              simp [this]
          · rename_i hnf hna hnd
            simp only at h
            cases ho : (emitRun cap rest
                ⟨(emitRefill cap s).1.window.drop step.consume, (emitRefill cap s).1.file,
                  (emitRefill cap s).1.eofIn⟩).result with
            | error e => rw [ho] at h; simp [Except.map] at h
            | ok fs' =>
              rw [ho] at h
              simp only [Except.map] at h
              have hframes := (Except.ok.inj h).symm
              subst hframes
              rw [ranSteps, if_neg hnd]
              have hih := ih _ fs' ho
              simp only [List.map_append, List.flatten_append, List.map_cons,
                List.flatten_cons, hih]
              split
              · simp
              · rename_i hz
                have : step.output = [] := by
                  refine List.length_eq_zero.mp ?_
                  omega
                simp [this]

/-- C5: pump output concatenation.  For every buffer capacity, every input
file, and every job-step list: whenever the pump run reaches RS_DONE (and,
as the claim phrases it, has consumed exactly its total input: empty final
window, file fully read), the frames handed to the sink carry, back to
back, exactly the bytes the job ever wrote to the output window, in order.
Termination is inherent: `emitRun` is structurally recursive on the list of
job steps, one iteration per step. -/
theorem c5_pump_output_concat (cap : Nat) (script : List JobStep) (input : List Nat)
    (frames : List (List Nat × Bool))
    (hok : (emitRun cap script (emitInit input)).result = .ok frames)
    (hwin : (emitRun cap script (emitInit input)).final.window = [])
    (hfile : (emitRun cap script (emitInit input)).final.file.rest = []) :
    (frames.map Prod.fst).flatten = ((ranSteps script).map JobStep.output).flatten :=
  emitRun_ok_flatten cap script (emitInit input) frames hok

/-- Witness for C5 with CAPACITY forced to 4 and a 10-byte input (larger
than the capacity, exercising refill carry-over): the job consumes 4, 4 and
2 bytes over three iterations, emitting [9, 9], [8], [7]; the sink sees
[9, 9, 8, 7]. -/
theorem c5_pump_output_concat_witness :
    (emitRun 4 [⟨4, [9, 9], .blocked⟩, ⟨4, [8], .blocked⟩, ⟨2, [7], .done⟩]
        (emitInit [0, 1, 2, 3, 4, 5, 6, 7, 8, 9])).result
      = .ok [([9, 9], false), ([8], false), ([7], false)] ∧
    (emitRun 4 [⟨4, [9, 9], .blocked⟩, ⟨4, [8], .blocked⟩, ⟨2, [7], .done⟩]
        (emitInit [0, 1, 2, 3, 4, 5, 6, 7, 8, 9])).final.window = [] ∧
    (emitRun 4 [⟨4, [9, 9], .blocked⟩, ⟨4, [8], .blocked⟩, ⟨2, [7], .done⟩]
        (emitInit [0, 1, 2, 3, 4, 5, 6, 7, 8, 9])).final.file.rest = [] ∧
    (([([9, 9], false), ([8], false), ([7], false)].map Prod.fst).flatten
      = ((ranSteps [⟨4, [9, 9], .blocked⟩, ⟨4, [8], .blocked⟩, ⟨2, [7], .done⟩]).map
          JobStep.output).flatten) := by
  refine ⟨rfl, rfl, rfl, ?_⟩
  exact c5_pump_output_concat 4 _ [0, 1, 2, 3, 4, 5, 6, 7, 8, 9] _ rfl rfl rfl

/-- C3 (code bug): once `eof_in` is set, the pumps keep sending frames with
the eof flag set whenever the job keeps producing output.  With a 3-byte
basis file and a job that (validly, per the rs_buffers_t contract) emits
output on three successive iterations — the last two after the file hit
end-of-file — `send_delta`/`send_signature` transmit the frame sequence
([10], eof=0), ([11], eof=1), ([12], eof=1): a frame is sent after a frame
whose end-of-stream flag is 1, and the flag is 1 on a non-final frame,
contradicting both the claim and the header documentation of common.h
(the receiving pumps stop reading after the first eof frame, so frame
[12] would never be consumed). -/
theorem c3_frame_after_eof_frame :
    (emitRun BUFFER_SIZE [⟨3, [10], .blocked⟩, ⟨0, [11], .blocked⟩, ⟨0, [12], .done⟩]
        (emitInit [1, 2, 3])).result
      = .ok [([10], false), ([11], true), ([12], true)] := by
  rfl

/-- Whether a pump result is the abort caused by the assert at the top of
`send_message` firing during a drain. -/
def isAssertFail : Except PumpErr (List (List Nat × Bool)) → Bool
  | .error .assertFail => true
  | _ => false

lemma isAssertFail_map (f : List (List Nat × Bool) → List (List Nat × Bool))
    (x : Except PumpErr (List (List Nat × Bool))) :
    isAssertFail (x.map f) = isAssertFail x := by
  cases x with
  | error e => rfl
  | ok v => rfl

lemma send_message_eq_none (msg : List Nat) (e : Bool)
    (h : send_message msg e = none) : BUFFER_SIZE < msg.length := by
  rw [send_message] at h
  split at h
  · simp at h
  · omega

/-- C10: in every drain the pumps perform, the payload handed to
`send_message` is `next_out - out_buf` bytes of the output window, which the
rs_buffers_t contract bounds by `avail_out = BUFFER_SIZE` (the window is
reset to empty after every drain), so the `assert(len <= UINT16_MAX >> 1)`
at the top of `send_message` can never fire in a pump run with the real
capacity: no run of `emitRun BUFFER_SIZE` ever exits through it. -/
theorem c10_send_assert_safe (script : List JobStep) (s : EmitSt) :
    isAssertFail (emitRun BUFFER_SIZE script s).result = false := by
  induction script generalizing s with
  | nil => rfl
  | cons step rest ih =>
    simp only [emitRun]
    split
    · rfl
    · split
      · rfl
      · split
        · rename_i hc hnf hcond
          exfalso
          push_neg at hc
          exact absurd (send_message_eq_none _ _ hcond.2) (by omega)
        · split
          · rfl
          · exact (isAssertFail_map _ _).trans (ih _)

/-- One observed call to `rs_job_iter` inside the receiving pump
`recv_signature`: its rs_buffers_t has no output buffer (`avail_out = 0`,
the loadsig job accumulates the signature internally), so only the bytes
consumed and the status matter. -/
structure RecvStep where
  consume : Nat
  res : RsResult
deriving DecidableEq

/-- Per-iteration observations of the receiving pump: the eof_in flag at the
top of the iteration, whether `recv_message` was called, the wire eof flag
it delivered, and the eof_in flag right after the refill block. -/
structure RecvIter where
  eofBefore : Bool
  pulled : Bool
  gotFlag : Bool
  eofAfter : Bool
deriving DecidableEq

/-- The state the receiving pump carries between iterations: the logical
input window, the remaining wire bytes, and the `bufs.eof_in` flag. -/
structure RecvSt where
  window : List Nat
  wire : List Nat
  eofIn : Bool
deriving DecidableEq

/-- The outcome of a receiving pump run. -/
structure RecvOut where
  result : Except PumpErr Unit
  log : List RecvIter
  final : RecvSt

/-- The socket refill block of `recv_signature` (server.c, lines 131-146):
skipped once `bufs.eof_in` is nonzero; otherwise
`recv_message(sock, in_buf + avail_in, &n_bytes, &bufs.eof_in)` appends the
received payload after the leftover tail and overwrites `eof_in` with the
received wire flag.  Returns `none` when `recv_message` fails. -/
def recvRefill (s : RecvSt) : Option (RecvSt × RecvIter) :=
  if s.eofIn then some (s, ⟨s.eofIn, false, false, s.eofIn⟩)
  else
    match recv_message s.wire with
    | none => none
    | some pr => some (⟨s.window ++ pr.1, pr.2.2, pr.2.1⟩, ⟨s.eofIn, true, pr.2.1, pr.2.1⟩)

/-- The receiving pump loop of `recv_signature` (server.c): refill from the
socket (unless eof_in), run one job step, no drain (the job drains its own
output), looping until RS_DONE. -/
def recvRun : List RecvStep → RecvSt → RecvOut
  | [], s => ⟨.error .noDone, [], s⟩
  | step :: rest, s =>
    match recvRefill s with
    | none => ⟨.error .recvFail, [], s⟩
    | some p =>
      if p.1.window.length < step.consume then
        ⟨.error .contract, [p.2], p.1⟩
      else if step.res = .failed then
        ⟨.error .jobFailed, [p.2], ⟨p.1.window.drop step.consume, p.1.wire, p.1.eofIn⟩⟩
      else if step.res = .done then
        ⟨.ok (), [p.2], ⟨p.1.window.drop step.consume, p.1.wire, p.1.eofIn⟩⟩
      else
        let o := recvRun rest ⟨p.1.window.drop step.consume, p.1.wire, p.1.eofIn⟩
        ⟨o.result, p.2 :: o.log, o.final⟩

lemma emitRefill_eofAfter (cap : Nat) (s : EmitSt) :
    (emitRefill cap s).2.eofAfter = (emitRefill cap s).1.eofIn := by
  rw [emitRefill]
  split <;> rfl

lemma emit_log_of_eof (cap : Nat) (script : List JobStep) :
    ∀ (s : EmitSt), s.eofIn = true →
      ∀ e ∈ (emitRun cap script s).log, e.pulled = false ∧ e.eofAfter = true := by
  induction script with
  | nil =>
    intro s hs e he
    simp [emitRun] at he
  | cons step rest ih =>
    intro s hs e he
    have hp : emitRefill cap s = (s, ⟨s.eofIn, false, 0, 0, s.eofIn⟩) := by
      rw [emitRefill, if_pos hs]
    simp only [emitRun, hp] at he
    split at he
    · simp at he
      subst he
      exact ⟨rfl, hs⟩
    · split at he
      · simp at he
        subst he
        exact ⟨rfl, hs⟩
      · split at he
        · simp at he
          subst he
          exact ⟨rfl, hs⟩
        · split at he
          · simp at he
            subst he
            exact ⟨rfl, hs⟩
          · simp only [List.mem_cons] at he
            cases he with
            | inl h => subst h; exact ⟨rfl, hs⟩
            | inr h => exact ih ⟨s.window.drop step.consume, s.file, s.eofIn⟩ hs e h

lemma singleton_split {α : Type} (a : α) (l1 : List α) (e : α) (l2 : List α)
    (h : [a] = l1 ++ e :: l2) : l2 = [] := by
  have hl := congrArg List.length h
  simp [List.length_append] at hl
  refine List.length_eq_zero.mp ?_
  omega

lemma emit_no_pull_after_eof (cap : Nat) (script : List JobStep) :
    ∀ (s : EmitSt) (l1 : List EmitIter) (e : EmitIter) (l2 : List EmitIter),
      (emitRun cap script s).log = l1 ++ e :: l2 → e.eofAfter = true →
      ∀ x ∈ l2, x.pulled = false ∧ x.eofAfter = true := by
  induction script with
  | nil =>
    intro s l1 e l2 hlog heof x hx
    simp [emitRun] at hlog
  | cons step rest ih =>
    intro s l1 e l2 hlog heof x hx
    simp only [emitRun] at hlog
    split at hlog
    · rw [singleton_split _ _ _ _ hlog] at hx
      simp at hx
    · split at hlog
      · rw [singleton_split _ _ _ _ hlog] at hx
        simp at hx
      · split at hlog
        · rw [singleton_split _ _ _ _ hlog] at hx
          simp at hx
        · split at hlog
          · rw [singleton_split _ _ _ _ hlog] at hx
            simp at hx
          · simp only at hlog
            cases l1 with
            | nil =>
              simp only [List.nil_append] at hlog
              have h1 := (List.cons.injEq _ _ _ _).mp hlog
              have heq : (emitRefill cap s).1.eofIn = true := by
                rw [← emitRefill_eofAfter, h1.1, heof]
              rw [← h1.2] at hx
              exact emit_log_of_eof cap rest
                ⟨(emitRefill cap s).1.window.drop step.consume, (emitRefill cap s).1.file,
                  (emitRefill cap s).1.eofIn⟩ heq x hx
            | cons y l1' =>
              simp only [List.cons_append] at hlog
              have h1 := (List.cons.injEq _ _ _ _).mp hlog
              exact ih _ l1' e l2 h1.2 heof x hx

lemma emitRefill_empty_read (cap : Nat) (s : EmitSt)
    (hp : (emitRefill cap s).2.pulled = true)
    (hg : (emitRefill cap s).2.got = 0)
    (hr : 0 < (emitRefill cap s).2.req) :
    (emitRefill cap s).2.eofAfter = true := by
  cases hs : s.eofIn with
  | true =>
    rw [emitRefill, if_pos hs] at hp
    exact absurd hp (by simp)
  | false =>
    rw [emitRefill, if_neg (by simp [hs])] at hg hr ⊢
    simp only [fread, List.length_take] at hg hr ⊢
    have hlen : s.file.rest.length < cap - s.window.length := by omega
    rw [if_pos hg]
    simp [hlen]

lemma emit_eof_on_empty_read (cap : Nat) (script : List JobStep) :
    ∀ (s : EmitSt), ∀ e ∈ (emitRun cap script s).log,
      e.pulled = true → e.got = 0 → 0 < e.req → e.eofAfter = true := by
  induction script with
  | nil =>
    intro s e he
    simp [emitRun] at he
  | cons step rest ih =>
    intro s e he hp hg hr
    have hbase : e = (emitRefill cap s).2 → e.eofAfter = true := by
      intro heq
      subst heq
      exact emitRefill_empty_read cap s hp hg hr
    simp only [emitRun] at he
    split at he
    · simp at he
      exact hbase he
    · split at he
      · simp at he
        exact hbase he
      · split at he
        · simp at he
          exact hbase he
        · split at he
          · simp at he
            exact hbase he
          · simp only [List.mem_cons] at he
            cases he with
            | inl h => exact hbase h
            | inr h => exact ih _ e h hp hg hr

lemma recvRefill_eofAfter (s : RecvSt) (p : RecvSt × RecvIter)
    (h : recvRefill s = some p) : p.2.eofAfter = p.1.eofIn := by
  rw [recvRefill] at h
  split at h
  · have := (Option.some.injEq _ _).mp h
    subst this
    rfl
  · split at h
    · simp at h
    · have := (Option.some.injEq _ _).mp h
      subst this
      rfl

lemma recv_log_of_eof (script : List RecvStep) :
    ∀ (s : RecvSt), s.eofIn = true →
      ∀ e ∈ (recvRun script s).log, e.pulled = false ∧ e.eofAfter = true := by
  induction script with
  | nil =>
    intro s hs e he
    simp [recvRun] at he
  | cons step rest ih =>
    intro s hs e he
    have hp : recvRefill s = some (s, ⟨s.eofIn, false, false, s.eofIn⟩) := by
      rw [recvRefill, if_pos hs]
    simp only [recvRun, hp] at he
    split at he
    · simp at he
      subst he
      exact ⟨rfl, hs⟩
    · split at he
      · simp at he
        subst he
        exact ⟨rfl, hs⟩
      · split at he
        · simp at he
          subst he
          exact ⟨rfl, hs⟩
        · simp only [List.mem_cons] at he
          cases he with
          | inl h => subst h; exact ⟨rfl, hs⟩
          | inr h => exact ih ⟨s.window.drop step.consume, s.wire, s.eofIn⟩ hs e h

lemma recv_no_pull_after_eof (script : List RecvStep) :
    ∀ (s : RecvSt) (l1 : List RecvIter) (e : RecvIter) (l2 : List RecvIter),
      (recvRun script s).log = l1 ++ e :: l2 → e.eofAfter = true →
      ∀ x ∈ l2, x.pulled = false ∧ x.eofAfter = true := by
  induction script with
  | nil =>
    intro s l1 e l2 hlog heof x hx
    simp [recvRun] at hlog
  | cons step rest ih =>
    intro s l1 e l2 hlog heof x hx
    simp only [recvRun] at hlog
    cases href : recvRefill s with
    | none =>
      rw [href] at hlog
      simp at hlog
    | some p =>
      rw [href] at hlog
      simp only at hlog
      split at hlog
      · rw [singleton_split _ _ _ _ hlog] at hx
        simp at hx
      · split at hlog
        · rw [singleton_split _ _ _ _ hlog] at hx
          simp at hx
        · split at hlog
          · rw [singleton_split _ _ _ _ hlog] at hx
            simp at hx
          · cases l1 with
            | nil =>
              simp only [List.nil_append] at hlog
              have h1 := (List.cons.injEq _ _ _ _).mp hlog
              have heq : p.1.eofIn = true := by
                rw [← recvRefill_eofAfter s p href, h1.1, heof]
              rw [← h1.2] at hx
              exact recv_log_of_eof rest
                ⟨p.1.window.drop step.consume, p.1.wire, p.1.eofIn⟩ heq x hx
            | cons y l1' =>
              simp only [List.cons_append] at hlog
              have h1 := (List.cons.injEq _ _ _ _).mp hlog
              exact ih _ l1' e l2 h1.2 heof x hx

lemma recv_eof_from_flag (script : List RecvStep) :
    ∀ (s : RecvSt), ∀ e ∈ (recvRun script s).log,
      e.pulled = true → e.eofAfter = e.gotFlag := by
  induction script with
  | nil =>
    intro s e he
    simp [recvRun] at he
  | cons step rest ih =>
    intro s e he hp
    have hbase : ∀ p, recvRefill s = some p → e = p.2 → e.eofAfter = e.gotFlag := by
      intro p href heq
      subst heq
      rw [recvRefill] at href
      split at href
      · have := (Option.some.injEq _ _).mp href
        subst this
        simp at hp
      · split at href
        · simp at href
        · have := (Option.some.injEq _ _).mp href
          subst this
          rfl
    simp only [recvRun] at he
    cases href : recvRefill s with
    | none =>
      rw [href] at he
      simp at he
    | some p =>
      rw [href] at he
      simp only at he
      split at he
      · simp at he
        exact hbase p href he
      · split at he
        · simp at he
          exact hbase p href he
        · split at he
          · simp at he
            exact hbase p href he
          · simp only [List.mem_cons] at he
            cases he with
            | inl h => exact hbase p href h
            | inr h => exact ih _ e h hp

/-- C6 (amended): in every pump run, (i) after any iteration whose refill
ends with eof_in set, every later iteration neither calls the source pull
operation again nor resets eof_in; (ii) in the file pumps, a pull that
requests at least one byte and returns zero bytes (no read errors occur in
the model) sets eof_in at that refill; (iii) as (i) for the socket pump;
(iv) in the socket pump, every refill that pulls sets eof_in to exactly the
received wire eof flag.  The amendment to the original claim: a pull issued
when the input window is already full requests zero bytes, and its
zero-byte return does not set eof_in (see the counterexample). -/
theorem c6_eof_propagation_amended :
    (∀ (cap : Nat) (script : List JobStep) (s : EmitSt) (l1 : List EmitIter)
        (e : EmitIter) (l2 : List EmitIter),
        (emitRun cap script s).log = l1 ++ e :: l2 → e.eofAfter = true →
        ∀ x ∈ l2, x.pulled = false ∧ x.eofAfter = true) ∧
    (∀ (cap : Nat) (script : List JobStep) (s : EmitSt),
        ∀ e ∈ (emitRun cap script s).log,
        e.pulled = true → e.got = 0 → 0 < e.req → e.eofAfter = true) ∧
    (∀ (script : List RecvStep) (s : RecvSt) (l1 : List RecvIter)
        (e : RecvIter) (l2 : List RecvIter),
        (recvRun script s).log = l1 ++ e :: l2 → e.eofAfter = true →
        ∀ x ∈ l2, x.pulled = false ∧ x.eofAfter = true) ∧
    (∀ (script : List RecvStep) (s : RecvSt),
        ∀ e ∈ (recvRun script s).log, e.pulled = true → e.eofAfter = e.gotFlag) :=
  ⟨emit_no_pull_after_eof, emit_eof_on_empty_read, recv_no_pull_after_eof,
    recv_eof_from_flag⟩

/-- C6 counterexample to the claim as stated: with capacity 4, a 5-byte
file, and a job that (validly) consumes nothing for two iterations, the
second and third refills call fread requesting `sizeof(in_buf) - avail_in
= 0` bytes; fread reports zero new bytes with no error, yet eof_in is NOT
set (`feof` is false: the file is not at end), and the pump calls the pull
operation again on the very next iteration.  The log below shows, per
iteration, (eofBefore, pulled, req, got, eofAfter). -/
theorem c6_zero_pull_counterexample :
    (emitRun 4 [⟨0, [], .blocked⟩, ⟨0, [], .blocked⟩, ⟨0, [], .done⟩]
        (emitInit [1, 2, 3, 4, 5])).log
      = [⟨false, true, 4, 4, false⟩, ⟨false, true, 0, 0, false⟩,
          ⟨false, true, 0, 0, false⟩] := by
  rfl

/-- Witness for the amended C6, applying part (i) to a concrete run: with a
2-byte file and capacity 4, the second refill requests 4 bytes, gets 0, and
sets eof_in; the third iteration then skips the pull and keeps eof_in. -/
theorem c6_eof_propagation_amended_witness :
    ((emitRun 4 [⟨2, [], .blocked⟩, ⟨0, [], .blocked⟩, ⟨0, [], .done⟩]
        (emitInit [1, 2])).log
      = [⟨false, true, 4, 2, false⟩]
          ++ (⟨false, true, 4, 0, true⟩ : EmitIter) :: [⟨true, false, 0, 0, true⟩]) ∧
    (⟨false, true, 4, 0, true⟩ : EmitIter).eofAfter = true ∧
    ((⟨true, false, 0, 0, true⟩ : EmitIter).pulled = false ∧
      (⟨true, false, 0, 0, true⟩ : EmitIter).eofAfter = true) := by
  refine ⟨rfl, rfl, ?_⟩
  exact c6_eof_propagation_amended.1 4
    [⟨2, [], .blocked⟩, ⟨0, [], .blocked⟩, ⟨0, [], .done⟩] (emitInit [1, 2])
    [⟨false, true, 4, 2, false⟩] ⟨false, true, 4, 0, true⟩ [⟨true, false, 0, 0, true⟩]
    rfl rfl ⟨true, false, 0, 0, true⟩ (by simp)

/-- The error taxonomy of `send_message` when the two `write` calls may be
partially accepted. -/
inductive SendErr
  | assertFail
  | headerShort
  | payloadShort
deriving DecidableEq

/-- The control flow of `send_message` (common.h, lines 56-85) with explicit
syscall results: the first `write` accepts `hdrAcc` of the 2 header bytes
and the second accepts `payAcc` of the `len` payload bytes; any short write
(`ret != sizeof(header)` resp. `ret != len`) is a hard error.  The eof flag
does not influence the control flow and is omitted. -/
def send_messageSys (hdrAcc payAcc len : Nat) : Except SendErr Unit :=
  if len ≤ BUFFER_SIZE then
    if hdrAcc = 2 then
      if 0 < len then
        if payAcc = len then .ok () else .error .payloadShort
      else .ok ()
    else .error .headerShort
  else .error .assertFail

/-- The drain of `recv_delta_and_patch_file` (client.c, lines 241-254):
`n_bytes = fwrite(out_buf, 1, present, new)` followed by an error check of
`n_bytes == 0` only — a partial write of at least one byte is not detected. -/
def fwriteDrain (present nBytes : Nat) : Except Unit Unit :=
  if nBytes = 0 then .error () else .ok ()

/-- C4 (code bug): a drain of 2 produced bytes of which the sink accepts
only 1 is a hard error for the socket sink (`send_message` checks
`ret != len`), but is treated as success by the file sink (the fwrite drain
checks only `n_bytes == 0`), after which the output window is reset and the
unwritten byte is silently lost — contradicting the claim that any
not-fully-accepted push of a nonzero byte count fails. -/
theorem c4_partial_fwrite_accepted :
    ((0 : Nat) < 2 ∧ (1 : Nat) < 2 ∧ fwriteDrain 2 1 = .ok ()) ∧
    send_messageSys 2 1 2 = .error .payloadShort := by
  exact ⟨⟨by decide, by decide, rfl⟩, rfl⟩

end RsStream
